import Mathlib

namespace UPE
/-!
Verification development for the UPE / GPS factorization repository.

The repository ships two JavaScript variants of the same numeric engine:
* `src/unnamed/part_000` — the UPE & GPS calculator (prime near X, Goldbach
  pairs, sqrt-window factorization with rings);
* `src/script.js` — the FactoriX sweep variant (`factorize`) followed by a
  second module with a deterministic 64-bit Miller-Rabin tester
  (`isPrime64`), Fermat and Pollard-Rho-Brent factorizers and the recursive
  `factor` / `factorizeBigInt` orchestrator.

All BigInt arithmetic is embedded over `ℕ` (or `ℤ` where the source value can
be negative, with JavaScript's truncated remainder `%` rendered as
`Int.tmod`).  Floating-point quantities (the `Math.log`-derived small-prime
cutoff `P` and auto window radius `Tauto`) are modelled as explicit
parameters of the search engines: every claim below is independent of their
concrete values.  The prime sets `S` produced by `primesUpTo` are likewise
passed as list parameters.
-/

/-! ### Modular exponentiation

The repository contains three syntactically identical copies of `modPow`
(`src/unnamed/part_000` lines 105-115, `src/script.js` lines 85-89 and
311-319): right-to-left binary exponentiation
`b = base % mod; r = 1; while (e > 0) { if (e & 1) r = r*b % mod; b = b*b % mod; e >>= 1 }`.
`modPow` below is the general `ℤ` embedding (JavaScript BigInt `%` is the
truncated remainder, `Int.tmod`).  `modPowN` is the same algorithm on `ℕ`,
which is how every call site inside the primality testers uses it (all
arguments there are non-negative, where `Int.tmod` agrees with `Nat.mod`). -/

/-- Loop of `modPow` over `ℤ`: state `(b, e, r)`, modulus `m`. -/
def modPowLoopInt (m : ℤ) (b e r : ℤ) : ℤ :=
  if e ≤ 0 then r
  else modPowLoopInt m (Int.tmod (b * b) m) (e / 2)
    (if e % 2 = 1 then Int.tmod (r * b) m else r)
termination_by e.toNat
decreasing_by
  simp only [not_le] at *
  omega

/-- `modPow(base, exp, mod)` from the source, over `ℤ` with JavaScript's
truncated remainder.  (For `mod = 0` JavaScript throws; `Int.tmod x 0 = x`
there, a point no claim touches.) -/
def modPow (base exp mod : ℤ) : ℤ :=
  modPowLoopInt mod (Int.tmod base mod) exp 1

/-- Loop of `modPow` over `ℕ` (the shape in which the primality testers call
it: all arguments non-negative). -/
def modPowLoopN (m : ℕ) (b e r : ℕ) : ℕ :=
  if e = 0 then r
  else modPowLoopN m (b * b % m) (e / 2) (if e % 2 = 1 then r * b % m else r)
termination_by e
decreasing_by omega

/-- `modPow` specialised to `ℕ`. -/
def modPowN (base exp mod : ℕ) : ℕ :=
  modPowLoopN mod (base % mod) exp 1

/-! ### Integer square root

Two implementation variants appear in the source:
* the bit-by-bit construction (`src/unnamed/part_000` lines 76-88 and
  `src/script.js` lines 220-231, textually identical):
  `x0 = 1; bit = 1 << (bitlength(n) - 1); while (bit > 0) { y = x0 + bit; if (y*y <= n) x0 = y; bit >>= 1 }`;
* the Newton iteration (`src/script.js` lines 303-309):
  `x = n; y = (x+1) >> 1; while (y < x) { x = y; y = (x + n/x) >> 1 }`.

`isqrt` embeds the first (the loop is indexed by the exponent `k` of the
current bit `2^k`, which the source drives from `n.toString(2).length - 1`,
i.e. `Nat.log 2 n` for `n ≥ 1`).  `isqrtNewton` embeds the second.  Both
throw on negative input in the source; the `ℕ` embedding covers the `n ≥ 0`
domain the claims quantify over. -/

/-- Bit-by-bit loop: processes bits `2^k, 2^(k-1), ..., 2^0`. -/
def isqrtLoop (n : ℕ) (x0 : ℕ) : ℕ → ℕ
  | 0 => if (x0 + 1) * (x0 + 1) ≤ n then x0 + 1 else x0
  | k + 1 =>
    isqrtLoop n (if (x0 + 2 ^ (k + 1)) * (x0 + 2 ^ (k + 1)) ≤ n then x0 + 2 ^ (k + 1) else x0) k

/-- `isqrt(n)`, bit-by-bit variant (both copies in the source). -/
def isqrt (n : ℕ) : ℕ :=
  if n < 2 then n else isqrtLoop n 1 (Nat.log 2 n)

/-- Newton loop of the `src/script.js` line 303 variant. -/
def isqrtNewtonGo (n x y : ℕ) : ℕ :=
  if y < x then isqrtNewtonGo n y ((y + n / y) / 2) else x
termination_by x
decreasing_by omega

/-- `isqrt(n)`, Newton variant (`src/script.js` lines 303-309). -/
def isqrtNewton (n : ℕ) : ℕ :=
  if n < 2 then n else isqrtNewtonGo n n ((n + 1) / 2)

/-! ### Miller-Rabin primality testers

`isProbablePrime(n, rounds)` appears identically in
`src/unnamed/part_000` lines 117-161 and `src/script.js` lines 90-116;
`isPrime64(n)` is the deterministic seven-base variant of
`src/script.js` lines 322-341.  The testers operate on non-negative BigInts,
so they are embedded over `ℕ`.  The linear-congruential pseudo-random base
generator of the probabilistic tester
(`seed = (1103515245*seed + 12345) & 0x7fffffff`, evaluated by JavaScript
with 64-bit float rounding before the 31-bit mask) is abstracted as an
arbitrary seed-update function `g : ℕ → ℕ`; every theorem below is proved
for all `g`, hence in particular for the source's sequence. -/

/-- `while ((d & 1) == 0) { d >>= 1; s++ }` from both testers.  The source
loop diverges on `d = 0`; every call site passes `d = n - 1 ≥ 2`, and the
embedding returns `(0, s)` on that unreachable input. -/
def splitTwos (d s : ℕ) : ℕ × ℕ :=
  if d = 0 then (d, s)
  else if d % 2 = 0 then splitTwos (d / 2) (s + 1) else (d, s)
termination_by d
decreasing_by omega

/-- The witness squaring loop `for (r = 1; r < s; r++) { x = x*x % n; if (x == n-1) ... }`
common to both testers, with `k = s - 1` remaining iterations. -/
def mrSquarings (n : ℕ) : ℕ → ℕ → Bool
  | _, 0 => false
  | x, k + 1 =>
    if x * x % n = n - 1 then true else mrSquarings n (x * x % n) k

/-- One Miller-Rabin witness check against base `a`, where `n - 1 = d·2^s`:
the body of `trial(a)` in `isProbablePrime` and of the per-base loop in
`isPrime64` (whose `continue`/`ok` bookkeeping computes the same Boolean). -/
def mrTrial (n d s a : ℕ) : Bool :=
  if a % n = 0 then true
  else if modPowN a d n = 1 ∨ modPowN a d n = n - 1 then true
  else mrSquarings n (modPowN a d n) (s - 1)

/-- `isPrime64` (`src/script.js` lines 322-341). -/
def isPrime64 (n : ℕ) : Bool :=
  if n < 2 then false
  else
    match [2, 3, 5, 7, 11, 13, 17, 19, 23, 29].find? (fun p => n % p == 0) with
    | some p => n == p
    | none =>
      [2, 3, 5, 7, 11, 13, 17].all fun a =>
        mrTrial n (splitTwos (n - 1) 0).1 (splitTwos (n - 1) 0).2 a

/-- Fixed-base phase of `isProbablePrime`: returns an early verdict
(`Sum.inl`) or the count of consumed rounds (`Sum.inr`). -/
def ippFixed (n d s rounds : ℕ) : List ℕ → ℕ → Bool ⊕ ℕ
  | [], cnt => Sum.inr cnt
  | a :: rest, cnt =>
    if mrTrial n d s a = false then Sum.inl false
    else if rounds ≤ cnt + 1 then Sum.inl true
    else ippFixed n d s rounds rest (cnt + 1)

/-- Pseudo-random phase of `isProbablePrime` (`while (cnt < rounds)`), with
`fuel = rounds - cnt` remaining rounds and seed update `g`. -/
def ippRandom (g : ℕ → ℕ) (n d s : ℕ) : ℕ → ℕ → Bool
  | _, 0 => true
  | seed, k + 1 =>
    let seed2 := g seed
    let span := n - 3
    let a0 := 2 + seed2 % (if 0 < span then span else 1)
    let a := if n ≤ a0 then a0 % (n - 2) + 2 else a0
    if mrTrial n d s a = false then false else ippRandom g n d s seed2 k

/-- `isProbablePrime(n, rounds)` (both copies in the source), parameterised
by the abstract seed-update function `g`. -/
def isProbablePrime (g : ℕ → ℕ) (n rounds : ℕ) : Bool :=
  if n < 2 then false
  else
    match [2, 3, 5, 7, 11, 13, 17, 19, 23, 29, 31, 37].find?
        (fun p => n == p || n % p == 0) with
    | some p => n == p
    | none =>
      match ippFixed n (splitTwos (n - 1) 0).1 (splitTwos (n - 1) 0).2 rounds
          [2, 3, 5, 7, 11, 13, 17] 0 with
      | Sum.inl b => b
      | Sum.inr cnt =>
        ippRandom g n (splitTwos (n - 1) 0).1 (splitTwos (n - 1) 0).2 123456789 (rounds - cnt)

/-! ### Admissibility filters

Three sieve prefilters appear in the source:
* `admissibleSingle(X, u, S)` — `src/unnamed/part_000` lines 165-175;
* `admissibleGoldbach(x, t, S)` — `src/unnamed/part_000` lines 177-188;
* `admissibleAroundSqrt(x, t, S)` — `src/script.js` lines 119-131, the same
  body as `admissibleGoldbach` preceded by `if (state.abort) return false;`
  (the cooperative-cancellation flag, modelled as the explicit `abort`
  argument).

Centers and offsets are BigInt/Number values, embedded as `ℤ`; the sieve
primes `S` are JavaScript Numbers, embedded as `List ℕ`.  All candidate
values reaching a `%` are `≥ 2` there (guarded by the `< 2` checks), where
`Int.emod`'s zero test agrees with JavaScript's remainder; for `s = 0`
JavaScript would throw while `v % 0 = v ≠ 0` makes the loop continue, a
difference only on sieve lists no caller produces. -/

/-- The per-prime loop `for (s of S) { if (v === s) return true; if (v % s === 0) return false }`
of `admissibleSingle`, also used verbatim as the body of `passesPrefilter`
inside `runFactorization` (`src/unnamed/part_000` lines 371-380). -/
def sievePassLoop (v : ℤ) : List ℕ → Bool
  | [] => true
  | s :: rest =>
    if v = (s : ℤ) then true
    else if v % (s : ℤ) = 0 then false
    else sievePassLoop v rest

/-- `admissibleSingle(X, u, S)` (`src/unnamed/part_000` lines 165-175). -/
def admissibleSingle (X u : ℤ) (S : List ℕ) : Bool :=
  if X + u < 2 then false
  else if (X + u) % 2 = 0 then X + u == 2
  else sievePassLoop (X + u) S

/-- The pair loop `for (s of S) { if (a === s || b === s) continue; if (a % s === 0 || b % s === 0) return false }`
shared by `admissibleGoldbach` and `admissibleAroundSqrt`. -/
def goldbachLoop (a b : ℤ) : List ℕ → Bool
  | [] => true
  | s :: rest =>
    if a = (s : ℤ) ∨ b = (s : ℤ) then goldbachLoop a b rest
    else if a % (s : ℤ) = 0 ∨ b % (s : ℤ) = 0 then false
    else goldbachLoop a b rest

/-- `admissibleGoldbach(x, t, S)` (`src/unnamed/part_000` lines 177-188). -/
def admissibleGoldbach (x t : ℤ) (S : List ℕ) : Bool :=
  if x - t < 2 ∨ x + t < 2 then false
  else if ((x - t) % 2 = 0 ∧ x - t ≠ 2) ∨ ((x + t) % 2 = 0 ∧ x + t ≠ 2) then false
  else goldbachLoop (x - t) (x + t) S

/-- `admissibleAroundSqrt(x, t, S)` (`src/script.js` lines 119-131): the
`state.abort` read is the explicit `abort` argument. -/
def admissibleAroundSqrt (abort : Bool) (x t : ℤ) (S : List ℕ) : Bool :=
  if abort then false
  else if x - t < 2 ∨ x + t < 2 then false
  else if ((x - t) % 2 = 0 ∧ x - t ≠ 2) ∨ ((x + t) % 2 = 0 ∧ x + t ≠ 2) then false
  else goldbachLoop (x - t) (x + t) S

/-! ### Windowed search engines (`src/unnamed/part_000`)

`runPrimeNearX`, `runGoldbach` and `runFactorization` are modelled after
their parse step: the engines receive the parsed center value, the sieve
prime list `S` (computed by the source as `primesUpTo(P)` with the
float-derived cutoff `P`), the float-derived auto radius `Tauto`
(`Math.max(8, Math.floor(c2·(ln N)²))`), the radius override `Tover`
(`0` when the override field is empty, exactly the source's falsy test),
and the Miller-Rabin round count.  Output formatting, timing and the DOM
are dropped; the structured outcome records what the source prints.  In
`runPrimeNearX`/`runGoldbach` the source's `checked` counter always equals
`tested`, so a single counter is kept. -/

/-- `function* symmetricOffsets(T) { yield 0; for (d = 1; d <= T; d++) { yield +d; yield -d } }`
(both files), materialised as the list of yielded offsets. -/
def symmetricOffsets (T : ℕ) : List ℤ :=
  0 :: (List.range T).flatMap fun d => [(d : ℤ) + 1, -((d : ℤ) + 1)]

/-- Outcome of `runPrimeNearX`: the safety preview (`T` too large), a found
prime at offset `u` after `tested` admissibles, or bounded-correction
exhaustion. -/
inductive PrimeOutcome
  | safetyPreview
  | found (u : ℤ) (tested : ℕ)
  | exhausted (tested : ℕ)
deriving DecidableEq, Repr

/-- Number of admissibles subjected to the Miller-Rabin confirmation test. -/
def PrimeOutcome.testedCount : PrimeOutcome → ℕ
  | .safetyPreview => 0
  | .found _ t => t
  | .exhausted t => t

/-- Scan loop of `runPrimeNearX` (`src/unnamed/part_000` lines 237-256):
skip inadmissible offsets, Miller-Rabin-test admissible candidates, stop on
success or after the bounded-correction cap of 3 tested admissibles. -/
def primeScan (g : ℕ → ℕ) (X : ℤ) (S : List ℕ) (mr : ℕ) : List ℤ → ℕ → PrimeOutcome
  | [], tested => .exhausted tested
  | u :: rest, tested =>
    if admissibleSingle X u S then
      if isProbablePrime g (X + u).toNat mr then .found u (tested + 1)
      else if 3 ≤ tested + 1 then .exhausted (tested + 1)
      else primeScan g X S mr rest (tested + 1)
    else primeScan g X S mr rest tested

/-- `runPrimeNearX` (`src/unnamed/part_000` lines 197-265) after a
successful non-preview parse.  The source computes
`T = Toverride ? max(2, Toverride) : Tauto` and aborts when
`!Toverride && T > 100000`; with `Tover = 0` that guard condition is
exactly `100000 < Tauto`. -/
def runPrimeNearX (g : ℕ → ℕ) (X : ℕ) (S : List ℕ) (Tauto Tover mr : ℕ) : PrimeOutcome :=
  if Tover = 0 ∧ 100000 < Tauto then .safetyPreview
  else primeScan g (X : ℤ) S mr
    (symmetricOffsets (if Tover ≠ 0 then max 2 Tover else Tauto)) 0

/-- Outcome of `runGoldbach`: evenness rejection, safety preview, a found
pair at offset `t`, or bounded-correction exhaustion. -/
inductive GoldbachOutcome
  | notEven
  | safetyPreview
  | found (t : ℤ) (tested : ℕ)
  | exhausted (tested : ℕ)
deriving DecidableEq, Repr

/-- Number of admissibles subjected to the pair confirmation test. -/
def GoldbachOutcome.testedCount : GoldbachOutcome → ℕ
  | .notEven => 0
  | .safetyPreview => 0
  | .found _ t => t
  | .exhausted t => t

/-- Scan loop of `runGoldbach` (`src/unnamed/part_000` lines 310-329): both
symmetric candidates must pass the Miller-Rabin test. -/
def goldbachScan (g : ℕ → ℕ) (x : ℤ) (S : List ℕ) (mr : ℕ) : List ℤ → ℕ → GoldbachOutcome
  | [], tested => .exhausted tested
  | t :: rest, tested =>
    if admissibleGoldbach x t S then
      if isProbablePrime g (x - t).toNat mr && isProbablePrime g (x + t).toNat mr then
        .found t (tested + 1)
      else if 3 ≤ tested + 1 then .exhausted (tested + 1)
      else goldbachScan g x S mr rest (tested + 1)
    else goldbachScan g x S mr rest tested

/-- `runGoldbach` (`src/unnamed/part_000` lines 269-338) after a successful
non-preview parse: evenness check, then the same `T` guard as
`runPrimeNearX`, then the scan around `x = E/2`. -/
def runGoldbach (g : ℕ → ℕ) (E : ℕ) (S : List ℕ) (Tauto Tover mr : ℕ) : GoldbachOutcome :=
  if E % 2 ≠ 0 then .notEven
  else if Tover = 0 ∧ 100000 < Tauto then .safetyPreview
  else goldbachScan g ((E / 2 : ℕ) : ℤ) S mr
    (symmetricOffsets (if Tover ≠ 0 then max 2 Tover else Tauto)) 0

/-! ### Ring factorization (`src/unnamed/part_000` lines 342-441)

`runFactorization` has no radius override parameter and—unlike the other
two modes—no `T_LIMIT` guard at all: after the parse and the `N < 4` check
it derives `P` and `T` from the float logarithm and scans immediately.
`T` and the ring count `K` are passed as parameters (`T` float-derived,
`K` an integer form field). -/

/-- `passesPrefilter(y)` from `runFactorization` (lines 371-380). -/
def passesPrefilter (use : Bool) (S : List ℕ) (y : ℤ) : Bool :=
  if !use then true
  else if y < 2 then false
  else sievePassLoop y S

/-- Outcome of `runFactorization`: the `N < 4` rejection, a found divisor
pair, ring-0 bounded-correction exhaustion, or no factor within `K` rings.
`checked` is the source's count of prefilter-passing divisibility tests. -/
inductive FactorOutcome
  | tooSmall
  | found (u : ℤ) (p q : ℤ) (checked : ℕ) (ringIdx : ℕ)
  | ring0Exhausted (checked : ℕ)
  | noFactor (checked : ℕ)
deriving DecidableEq, Repr

/-- Per-ring offset loop of `runFactorization` (lines 385-431): skip offsets
interior to the previous ring, test `X + u` and (for `u ≠ 0`) `X - u` for
divisibility when they pass the prefilter, and after each offset stop with
bounded-correction exhaustion when ring 0 has `checked >= 3`.  Returns the
final `checked` when the ring is exhausted without a verdict. -/
def ringOffsetsLoop (N : ℤ) (S : List ℕ) (use : Bool) (X : ℤ) (Tn ringIdx : ℕ) :
    List ℤ → ℕ → FactorOutcome ⊕ ℕ
  | [], checked => Sum.inr checked
  | u :: rest, checked =>
    if 0 < ringIdx ∧ u.natAbs < (ringIdx - 1) * Tn then
      ringOffsetsLoop N S use X Tn ringIdx rest checked
    else
      let cA := if passesPrefilter use S (X + u) then checked + 1 else checked
      if passesPrefilter use S (X + u) ∧ N % (X + u) = 0 then
        Sum.inl (.found u (X + u) (N / (X + u)) cA ringIdx)
      else
        let cB := if u ≠ 0 ∧ passesPrefilter use S (X - u) then cA + 1 else cA
        if u ≠ 0 ∧ passesPrefilter use S (X - u) ∧ N % (X - u) = 0 then
          Sum.inl (.found (-u) (X - u) (N / (X - u)) cB ringIdx)
        else if ringIdx = 0 ∧ 3 ≤ cB then Sum.inl (.ring0Exhausted cB)
        else ringOffsetsLoop N S use X Tn ringIdx rest cB

/-- Outer ring loop `for (ring = 0; ring <= K; ring++)` of
`runFactorization`, with `fuel = K + 1 - ringIdx` remaining rings. -/
def ringsLoop (N : ℤ) (S : List ℕ) (use : Bool) (X : ℤ) (Tn : ℕ) :
    ℕ → ℕ → ℕ → FactorOutcome
  | 0, _, checked => .noFactor checked
  | fuel + 1, ringIdx, checked =>
    match ringOffsetsLoop N S use X Tn ringIdx (symmetricOffsets (ringIdx * Tn)) checked with
    | Sum.inl out => out
    | Sum.inr c => ringsLoop N S use X Tn fuel (ringIdx + 1) c

/-- `runFactorization(rawN, c1, c2, K, usePrefilter, mrRounds)` after a
successful non-preview parse, with the float-derived `T` passed as `Tn` and
the sieve list as `S`.  Note the absence of any `T`-ceiling guard. -/
def runFactorization (N : ℕ) (S : List ℕ) (Tn K : ℕ) (use : Bool) : FactorOutcome :=
  if N < 4 then .tooSmall
  else ringsLoop (N : ℤ) S use ((isqrt N : ℕ) : ℤ) Tn (K + 1) 0 0

/-- `checked` count carried by a ring-loop result. -/
def froChecked : FactorOutcome ⊕ ℕ → ℕ
  | Sum.inl .tooSmall => 0
  | Sum.inl (.found _ _ _ c _) => c
  | Sum.inl (.ring0Exhausted c) => c
  | Sum.inl (.noFactor c) => c
  | Sum.inr c => c

/-- The offsets ring `k` actually subjects to testing (before any
prefilter): the enumeration `symmetricOffsets(k·T)` minus the skip
`ring > 0 && |u| < (ring-1)·T` (`src/unnamed/part_000` lines 387-388,
`src/script.js` lines 184-186). -/
def ringOffsets (Tn k : ℕ) : List ℤ :=
  (symmetricOffsets (k * Tn)).filter fun u =>
    !(decide (0 < k) && decide (u.natAbs < (k - 1) * Tn))

/-! ### FactoriX `factorize` (`src/script.js` lines 148-217)

`factorize(N, B, T, K, prefilter, mrRounds)` runs three phases: an evenness
shortcut, a small-factor sweep up to `B`, and the ring window around `√N`.
The cooperative pauses, log lines and the `state.abort` flag are dropped
(`abort` is `false` throughout a completed run).  The sieve outputs
`primesUpTo(max(3, B))` (sweep) and `primesUpTo(P)` (window prefilter, `P`
float-derived) are passed as the list parameters `smalls` and `S`. -/

/-- `quickSmallFactor(N, bound)` (`src/script.js` lines 138-146) with the
sieve output passed in: the first listed prime dividing `N`. -/
def quickSmallFactor (N : ℤ) (smalls : List ℕ) : Option ℤ :=
  (smalls.find? fun p => N % (p : ℤ) == 0).map fun p => (p : ℤ)

/-- Outcome of `factorize`: a divisor pair from the even shortcut, the
small-factor sweep, or the window phase, or no factor in range. -/
inductive FzOutcome
  | evenPhase (p q : ℤ)
  | smallPhase (p q : ℤ)
  | windowPhase (p q : ℤ) (ringIdx : ℕ) (u : ℤ) (checked : ℕ)
  | noFactor (checked : ℕ)
deriving DecidableEq, Repr

/-- Per-ring offset loop of `factorize` (`src/script.js` lines 184-213):
the prefilter is `admissibleAroundSqrt` on the pair, `checked` counts each
divisibility test (`a`, and `b` when `u ≠ 0`). -/
def fzRingLoop (N : ℤ) (S : List ℕ) (pref : Bool) (x : ℤ) (Tn ringIdx : ℕ) :
    List ℤ → ℕ → FzOutcome ⊕ ℕ
  | [], c => Sum.inr c
  | u :: rest, c =>
    if 0 < ringIdx ∧ u.natAbs < (ringIdx - 1) * Tn then
      fzRingLoop N S pref x Tn ringIdx rest c
    else if pref ∧ admissibleAroundSqrt false x u S = false then
      fzRingLoop N S pref x Tn ringIdx rest c
    else if N % (x + u) = 0 then
      Sum.inl (.windowPhase (x + u) (N / (x + u)) ringIdx u (c + 1))
    else if u ≠ 0 ∧ N % (x - u) = 0 then
      Sum.inl (.windowPhase (x - u) (N / (x - u)) ringIdx (-u) (c + 2))
    else fzRingLoop N S pref x Tn ringIdx rest (if u = 0 then c + 1 else c + 2)

/-- Outer ring loop `for (ring = 0; ring <= K; ring++)` of `factorize`,
with `fuel = K + 1 - ringIdx` remaining rings. -/
def fzRings (N : ℤ) (S : List ℕ) (pref : Bool) (x : ℤ) (Tn : ℕ) :
    ℕ → ℕ → ℕ → FzOutcome
  | 0, _, c => .noFactor c
  | fuel + 1, ringIdx, c =>
    match fzRingLoop N S pref x Tn ringIdx (symmetricOffsets (ringIdx * Tn)) c with
    | Sum.inl out => out
    | Sum.inr c2 => fzRings N S pref x Tn fuel (ringIdx + 1) c2

/-- `factorize` (`src/script.js` lines 149-217).  Phase order is exactly the
source's: the `N % 2 == 0` shortcut returns `(2, N/2)` before anything else
runs — no check that the cofactor exceeds 1. -/
def factorize (N B : ℕ) (smalls S : List ℕ) (Tn K : ℕ) (pref : Bool) : FzOutcome :=
  if N % 2 = 0 then .evenPhase 2 ((N : ℤ) / 2)
  else
    match (if 0 < B then quickSmallFactor (N : ℤ) smalls else none) with
    | some p => .smallPhase p ((N : ℤ) / p)
    | none => fzRings (N : ℤ) S pref ((isqrt N : ℕ) : ℤ) Tn (K + 1) 0 0

/-- `checked` count carried by a `factorize` ring-loop result. -/
def fzChecked : FzOutcome ⊕ ℕ → ℕ
  | Sum.inl (.evenPhase _ _) => 0
  | Sum.inl (.smallPhase _ _) => 0
  | Sum.inl (.windowPhase _ _ _ _ c) => c
  | Sum.inl (.noFactor c) => c
  | Sum.inr c => c

/-! ### Input parser (`parseBigIntExpr`)

`parseBigIntExpr(raw)` appears identically in `src/unnamed/part_000` lines
28-63 and `src/script.js` lines 36-58.  It first computes
`s = raw.trim().replace(/\s+/g, "")` — i.e. it deletes every whitespace
character, leading, trailing or interior (the trim is subsumed by the
global replace) — then accepts a pure digit string, or matches the regex
`/^10\^([0-9]+)(?:([+\-])([0-9]+))?$/` (whose greedy digit group admits no
backtracking, so it is equivalent to the take-longest-digit-prefix
decomposition used here), and otherwise reports a format error.  Strings
are embedded as `List Char`. -/

/-- The whitespace class `\s` of JavaScript regular expressions:
tab, LF, VT, FF, CR, space, NBSP, Ogham space, the U+2000-200A spaces,
line/paragraph separators, NNBSP, MMSP, ideographic space and the BOM. -/
def jsWhitespaceChars : List Char :=
  [' ', '\t', '\n', '\r', '\x0B', '\x0C', '\u00A0', '\u1680', '\u2000',
   '\u2001', '\u2002', '\u2003', '\u2004', '\u2005', '\u2006', '\u2007',
   '\u2008', '\u2009', '\u200A', '\u2028', '\u2029', '\u202F', '\u205F',
   '\u3000', '\uFEFF']

/-- Whether a character matches `\s`. -/
def jsWhitespace (c : Char) : Bool :=
  jsWhitespaceChars.contains c

/-- Value of a decimal digit string (`BigInt(s)` on a digit-only string). -/
def digitsVal (l : List Char) : ℕ :=
  l.foldl (fun acc c => 10 * acc + (c.toNat - '0'.toNat)) 0

/-- Loop of `powBI(a, e)` (`src/unnamed/part_000` lines 47-55,
`src/script.js` lines 59-63): binary exponentiation by squaring. -/
def powBILoop (b : ℤ) (e : ℕ) (r : ℤ) : ℤ :=
  if e = 0 then r
  else powBILoop (b * b) (e / 2) (if e % 2 = 1 then r * b else r)
termination_by e
decreasing_by omega

/-- `powBI(a, e)`. -/
def powBI (a : ℤ) (e : ℕ) : ℤ :=
  powBILoop a e 1

/-- Result of `parseBigIntExpr`: the two failure messages (`Empty input.` /
`Unsupported input.`), an exact value with its `approxLog10`, or the
log-only preview for `10^k` with `k > 2000` carrying the unapplied
adjustment. -/
inductive ParseResult
  | errEmpty
  | errFormat
  | big (value : ℤ) (approxLog10 : ℤ)
  | logonly (approxLog10 : ℕ) (adjust : Option (Bool × ℕ))
deriving DecidableEq, Repr

/-- Part of the regex match after the literal `10^` prefix: a nonempty
digit group for `k`, optionally followed by `+` or `-` and a nonempty digit
group for `c`, consuming the whole remainder. -/
def matchPowTail (rest : List Char) : Option (ℕ × Option (Bool × ℕ)) :=
  if rest.takeWhile Char.isDigit = [] then none
  else
    match rest.dropWhile Char.isDigit with
    | [] => some (digitsVal (rest.takeWhile Char.isDigit), none)
    | c :: cs =>
      if (c = '+' ∨ c = '-') ∧ cs ≠ [] ∧ cs.all Char.isDigit then
        some (digitsVal (rest.takeWhile Char.isDigit), some (c = '+', digitsVal cs))
      else none

/-- Match of the regex `/^10\^([0-9]+)(?:([+\-])([0-9]+))?$/` against a
(whitespace-free) string: returns `k`'s digits value and the optional
`(op is plus, c)` adjustment. -/
def matchPow10 (l : List Char) : Option (ℕ × Option (Bool × ℕ)) :=
  match l with
  | '1' :: '0' :: '^' :: rest => matchPowTail rest
  | _ => none

/-- `parseBigIntExpr` applied to the whitespace-stripped string `s`. -/
def parseStripped (s : List Char) : ParseResult :=
  if s = [] then .errEmpty
  else if s.all Char.isDigit then .big (digitsVal s) ((s.length : ℤ) - 1)
  else
    match matchPow10 s with
    | some (k, adj) =>
      if 2000 < k then .logonly k adj
      else
        match adj with
        | none => .big (powBI 10 k) (k : ℤ)
        | some (true, c) => .big (powBI 10 k + c) (k : ℤ)
        | some (false, c) => .big (powBI 10 k - c) (k : ℤ)
    | none => .errFormat

/-- `parseBigIntExpr(raw)`: strip all whitespace, then parse. -/
def parseBigIntExpr (raw : List Char) : ParseResult :=
  parseStripped (raw.filter fun c => !jsWhitespace c)

/-- Whether the parse succeeded (`ok: true` in the source). -/
def ParseResult.isOk : ParseResult → Bool
  | .big _ _ => true
  | .logonly _ _ => true
  | .errEmpty => false
  | .errFormat => false

/-- The acceptance predicate in the claim's own words, applied to a string
as-is (no whitespace handling): a nonempty decimal digit sequence, or
`10^k` optionally followed by `+c` or `-c` with `k`, `c` digit sequences. -/
def SpecAccepts (s : List Char) : Prop :=
  (s ≠ [] ∧ ∀ c ∈ s, c.isDigit = true) ∨
  (∃ ks : List Char, ks ≠ [] ∧ (∀ c ∈ ks, c.isDigit = true) ∧
    (s = '1' :: '0' :: '^' :: ks ∨
      ∃ (sign : Char) (cs : List Char), (sign = '+' ∨ sign = '-') ∧ cs ≠ [] ∧
        (∀ c ∈ cs, c.isDigit = true) ∧ s = '1' :: '0' :: '^' :: (ks ++ sign :: cs)))

/-! ### Recursive factorization (`factor` / `factorizeBigInt`)

`factor(n, out)` (`src/script.js` lines 393-407) pushes `n` when
`isPrime64(n)` holds, and otherwise splits `n = d · (n/d)` and recurses on
both parts, where `d` comes from the first applicable of: the fixed
small-prime list (first listed divisor `p`, with `p < n` since `n` is not
prime), `fermatFactor` (which returns `p, q > 1` with `p·q = n`), or
`rhoBrent` retried `while (d === n)` (each attempt returns a
`gcd(·, n) ≠ 1`, i.e. a divisor of `n` greater than 1, and the retry loop
enforces `d ≠ n`; its `Math.random()` seeds make the choice of `d`
nondeterministic and termination probabilistic).  Every terminating run of
`factorizeBigInt(N) = { const res = []; factor(N, res); return res }` is
therefore a derivation of the big-step relation `FactorRel`, whose `split`
rule carries exactly the guarantees common to the three divisor sources:
`1 < d < n`, `d ∣ n`, on an `n` failing `isPrime64`. -/

inductive FactorRel : ℕ → List ℕ → Prop
  | one : FactorRel 1 []
  | prime (n : ℕ) : isPrime64 n = true → FactorRel n [n]
  | split (n d : ℕ) (l1 l2 : List ℕ) :
      isPrime64 n = false → d ∣ n → 1 < d → d < n →
      FactorRel d l1 → FactorRel (n / d) l2 → FactorRel n (l1 ++ l2)
theorem modPowLoopN_eq (m : ℕ) (hm : 2 ≤ m) :
    ∀ e b r, r < m → modPowLoopN m b e r = r * b ^ e % m := by
  intro e
  induction e using Nat.strong_induction_on with
  | _ e ih =>
    intro b r hr
    rw [modPowLoopN]
    by_cases he : e = 0
    · simp [he, Nat.mod_eq_of_lt hr]
    · simp only [he, if_false]
      have hlt : e / 2 < e := Nat.div_lt_self (Nat.pos_of_ne_zero he) one_lt_two
      have hr' : (if e % 2 = 1 then r * b % m else r) < m := by
        split
        · exact Nat.mod_lt _ (by omega)
        · exact hr
      rw [ih (e / 2) hlt _ _ hr']
      have hpow : b ^ e = b ^ (e % 2) * (b * b) ^ (e / 2) := by
        rw [← sq b, ← pow_mul, ← pow_add]
        congr 1
        omega
      have h1 : (if e % 2 = 1 then r * b % m else r) ≡ r * b ^ (e % 2) [MOD m] := by
        split_ifs with h
        · rw [h, pow_one]
          exact Nat.mod_modEq (r * b) m
        · have h0 : e % 2 = 0 := by omega
          rw [h0, pow_zero, mul_one]
      have h2 : (b * b % m) ^ (e / 2) ≡ (b * b) ^ (e / 2) [MOD m] :=
        (Nat.mod_modEq (b * b) m).pow _
      rw [hpow, ← mul_assoc]
      exact h1.mul h2

theorem modPowLoopInt_bound (m : ℤ) (hm : 2 ≤ m) :
    ∀ (k : ℕ) (e b r : ℤ), e.toNat ≤ k → 0 ≤ b → 0 ≤ r → r < m →
      0 ≤ modPowLoopInt m b e r ∧ modPowLoopInt m b e r < m := by
  intro k
  induction k with
  | zero =>
    intro e b r he hb hr0 hr
    rw [modPowLoopInt]
    have h0 : e ≤ 0 := by omega
    simp [h0, hr0, hr]
  | succ k ih =>
    intro e b r he hb hr0 hr
    rw [modPowLoopInt]
    by_cases h : e ≤ 0
    · simp [h, hr0, hr]
    · simp only [h, if_false]
      apply ih
      · omega
      · exact Int.tmod_nonneg m (mul_nonneg hb hb)
      · split_ifs with hpar
        · exact Int.tmod_nonneg m (mul_nonneg hr0 hb)
        · exact hr0
      · split_ifs with hpar
        · exact Int.tmod_lt_of_pos (r * b) (by omega)
        · exact hr

/-- Helper form of the corrected `modPow` range contract. -/
theorem modPow_range (base exp m : ℤ) (hb : 0 ≤ base) (hm : 2 ≤ m) :
    0 ≤ modPow base exp m ∧ modPow base exp m < m := by
  unfold modPow
  exact modPowLoopInt_bound m hm exp.toNat exp (Int.tmod base m) 1 le_rfl
    (Int.tmod_nonneg m hb) (by omega) (by omega)

theorem isqrtLoop_spec (n : ℕ) :
    ∀ (k : ℕ) (x0 : ℕ), x0 * x0 ≤ n → n < (x0 + 2 * 2 ^ k) * (x0 + 2 * 2 ^ k) →
      isqrtLoop n x0 k * isqrtLoop n x0 k ≤ n ∧
        n < (isqrtLoop n x0 k + 1) * (isqrtLoop n x0 k + 1) := by
  intro k
  induction k with
  | zero =>
    intro x0 hlo hhi
    rw [isqrtLoop]
    split_ifs with h
    · exact ⟨h, by simpa [pow_zero] using hhi⟩
    · exact ⟨hlo, by omega⟩
  | succ k ih =>
    intro x0 hlo hhi
    rw [isqrtLoop]
    split_ifs with h
    · refine ih _ h ?_
      have he : x0 + 2 ^ (k + 1) + 2 * 2 ^ k = x0 + 2 * 2 ^ (k + 1) := by ring
      rw [he]
      exact hhi
    · refine ih _ hlo ?_
      have he : x0 + 2 * 2 ^ k = x0 + 2 ^ (k + 1) := by ring
      rw [he]
      omega

/-- The bit-by-bit `isqrt` returns the floor square root (shared helper). -/
theorem isqrt_spec (n : ℕ) : isqrt n * isqrt n ≤ n ∧ n < (isqrt n + 1) * (isqrt n + 1) := by
  unfold isqrt
  split_ifs with h
  · interval_cases n <;> simp
  · apply isqrtLoop_spec
    · omega
    · have hbig : n < 2 ^ (Nat.log 2 n + 1) := Nat.lt_pow_succ_log_self (by norm_num) n
      have h2 : 2 ^ (Nat.log 2 n + 1) = 2 * 2 ^ Nat.log 2 n := by ring
      nlinarith [pow_pos (show 0 < 2 by norm_num) (Nat.log 2 n)]

/-- Integer AM-GM: the Newton step never drops below the floor square root. -/
theorem sqrt_le_newton_step (n x : ℕ) (hx : 0 < x) : Nat.sqrt n ≤ (x + n / x) / 2 := by
  set s := Nat.sqrt n with hs
  rcases le_or_lt (2 * s) x with h | h
  · calc s ≤ 2 * s / 2 := by omega
      _ ≤ (x + n / x) / 2 := Nat.div_le_div_right (le_trans h (Nat.le_add_right x (n / x)))
  · have hmul : (2 * s - x) * x ≤ n := by
      have hss : s * s ≤ n := Nat.sqrt_le n
      have : (2 * s - x) * x ≤ s * s := by
        zify [le_of_lt h]
        nlinarith [sq_nonneg ((s : ℤ) - x)]
      omega
    have hdiv : 2 * s - x ≤ n / x := (Nat.le_div_iff_mul_le hx).mpr hmul
    have : 2 * s ≤ x + n / x := by omega
    calc s = 2 * s / 2 := by omega
      _ ≤ (x + n / x) / 2 := Nat.div_le_div_right this

theorem isqrtNewtonGo_spec (n : ℕ) (hn : 1 ≤ n) :
    ∀ x, 0 < x → Nat.sqrt n ≤ x → isqrtNewtonGo n x ((x + n / x) / 2) = Nat.sqrt n := by
  intro x
  induction x using Nat.strong_induction_on with
  | _ x ih =>
    intro hx hsx
    rw [isqrtNewtonGo]
    split_ifs with hlt
    · have hy0 : 0 < (x + n / x) / 2 :=
        lt_of_lt_of_le (Nat.sqrt_pos.mpr hn) (sqrt_le_newton_step n x hx)
      exact ih _ hlt hy0 (sqrt_le_newton_step n x hx)
    · push_neg at hlt
      have h2 : x * 2 ≤ x + n / x := (Nat.le_div_iff_mul_le (by norm_num)).mp hlt
      have hxn : x ≤ n / x := by omega
      have hxx : x * x ≤ n := (Nat.le_div_iff_mul_le hx).mp hxn
      exact le_antisymm (Nat.le_sqrt.mpr hxx) hsx

/-- The Newton `isqrt` also returns the floor square root (shared helper). -/
theorem isqrtNewton_spec (n : ℕ) :
    isqrtNewton n * isqrtNewton n ≤ n ∧ n < (isqrtNewton n + 1) * (isqrtNewton n + 1) := by
  unfold isqrtNewton
  split_ifs with h
  · interval_cases n <;> simp
  · have hn : 1 ≤ n := by omega
    have hinit : (n + 1) / 2 = (n + n / n) / 2 := by
      rw [Nat.div_self (show 0 < n by omega)]
    rw [hinit, isqrtNewtonGo_spec n hn n (by omega) (Nat.sqrt_le_self n)]
    refine ⟨Nat.sqrt_le n, ?_⟩
    simpa [Nat.succ_eq_add_one] using Nat.lt_succ_sqrt n

theorem splitTwos_spec : ∀ m s0, 0 < m →
    (splitTwos m s0).1 * 2 ^ ((splitTwos m s0).2 - s0) = m ∧
      s0 ≤ (splitTwos m s0).2 := by
  intro m
  induction m using Nat.strong_induction_on with
  | _ m ih =>
    intro s0 hm
    rw [splitTwos]
    split_ifs with h0 h2
    · omega
    · have hlt : m / 2 < m := by omega
      have hres := ih (m / 2) hlt (s0 + 1) (by omega)
      refine ⟨?_, by omega⟩
      have hexp : (splitTwos (m / 2) (s0 + 1)).2 - s0 =
          ((splitTwos (m / 2) (s0 + 1)).2 - (s0 + 1)) + 1 := by omega
      rw [hexp, pow_succ, ← mul_assoc, hres.1]
      omega
    · simp

/-- In a field of odd prime order, an element whose `2^s`-th power is `1` is
itself `1` or reaches `-1` along the repeated-squaring chain. -/
theorem pow_two_chain {p : ℕ} (hp : p.Prime) :
    ∀ (s : ℕ) (beta : ZMod p), beta ^ 2 ^ s = 1 →
      beta = 1 ∨ ∃ r < s, beta ^ 2 ^ r = -1 := by
  haveI : Fact p.Prime := ⟨hp⟩
  intro s
  induction s with
  | zero =>
    intro beta h
    left
    simpa using h
  | succ s ih =>
    intro beta h
    have hsq : beta ^ 2 ^ s * beta ^ 2 ^ s = 1 := by
      rw [← pow_add]
      have he : 2 ^ s + 2 ^ s = 2 ^ (s + 1) := by ring
      rw [he]
      exact h
    rcases mul_self_eq_one_iff.mp hsq with h1 | hm1
    · rcases ih beta h1 with hb | ⟨r, hr, hneg⟩
      · exact Or.inl hb
      · exact Or.inr ⟨r, by omega, hneg⟩
    · exact Or.inr ⟨s, by omega, hm1⟩

theorem mrSquarings_hit (n : ℕ) :
    ∀ (k x j : ℕ), 1 ≤ j → j ≤ k → x ^ 2 ^ j % n = n - 1 →
      mrSquarings n x k = true := by
  intro k
  induction k with
  | zero =>
    intro x j hj hjk _
    omega
  | succ k ih =>
    intro x j hj hjk hhit
    rw [mrSquarings]
    split_ifs with h
    · rfl
    · rcases Nat.lt_or_ge j 2 with hj1 | hj2
      · exfalso
        have hj' : j = 1 := by omega
        rw [hj'] at hhit
        apply h
        calc x * x % n = x ^ 2 % n := by rw [pow_two]
          _ = n - 1 := by simpa using hhit
      · refine ih (x * x % n) (j - 1) (by omega) (by omega) ?_
        have hstep : (x * x % n) ^ 2 ^ (j - 1) % n = (x * x) ^ 2 ^ (j - 1) % n :=
          (Nat.pow_mod (x * x) (2 ^ (j - 1)) n).symm
        rw [hstep, ← pow_two x, ← pow_mul]
        have hexp : 2 * 2 ^ (j - 1) = 2 ^ j := by
          have : j - 1 + 1 = j := by omega
          calc 2 * 2 ^ (j - 1) = 2 ^ (j - 1 + 1) := by ring
            _ = 2 ^ j := by rw [this]
        rw [hexp]
        exact hhit

/-- A prime never fails a Miller-Rabin witness check: for a prime `p > 2`
with `p - 1 = d·2^s`, `trial(a)` returns `true` for every base `a`. -/
theorem mrTrial_of_prime (p d s a : ℕ) (hp : p.Prime) (hp2 : 2 < p)
    (hds : p - 1 = d * 2 ^ s) : mrTrial p d s a = true := by
  haveI : Fact p.Prime := ⟨hp⟩
  haveI : Fact (1 < p) := ⟨by omega⟩
  unfold mrTrial
  split_ifs with ha hx
  · rfl
  · rfl
  · have hpdvd : ¬ p ∣ a := fun hdvd => ha (Nat.dvd_iff_mod_eq_zero.mp hdvd)
    have halpha : (a : ZMod p) ≠ 0 := by
      rw [Ne, ZMod.natCast_zmod_eq_zero_iff_dvd]
      exact hpdvd
    have hmp : modPowN a d p = ((a : ZMod p) ^ d).val := by
      rw [modPowN, modPowLoopN_eq p (by omega) d (a % p) 1 (by omega), one_mul,
        ← Nat.pow_mod, ← Nat.cast_pow, ZMod.val_natCast]
    have hone : ((a : ZMod p) ^ d) ^ 2 ^ s = 1 := by
      rw [← pow_mul, ← hds]
      exact ZMod.pow_card_sub_one_eq_one halpha
    have hvneg : ∀ z : ZMod p, z = -1 → z.val = p - 1 := by
      intro z hz
      have hcast : ((p - 1 : ℕ) : ZMod p) = -1 := by
        push_cast [Nat.cast_sub (show 1 ≤ p by omega)]
        simp [ZMod.natCast_self]
      rw [hz, ← hcast, ZMod.val_natCast, Nat.mod_eq_of_lt (by omega)]
    rcases pow_two_chain hp s ((a : ZMod p) ^ d) hone with h1 | ⟨r, hrs, hneg⟩
    · exact absurd (Or.inl (by rw [hmp, h1, ZMod.val_one])) hx
    · rcases Nat.eq_zero_or_pos r with hr0 | hrpos
      · refine absurd (Or.inr ?_) hx
        rw [hr0] at hneg
        simp only [pow_zero, pow_one] at hneg
        rw [hmp]
        exact hvneg _ hneg
      · apply mrSquarings_hit p (s - 1) (modPowN a d p) r hrpos (by omega)
        rw [hmp]
        calc ((a : ZMod p) ^ d).val ^ 2 ^ r % p
            = (((((a : ZMod p) ^ d).val ^ 2 ^ r : ℕ)) : ZMod p).val := (ZMod.val_natCast _).symm
          _ = (((a : ZMod p) ^ d) ^ 2 ^ r).val := by
              rw [Nat.cast_pow, ZMod.natCast_zmod_val]
          _ = p - 1 := hvneg _ hneg

theorem ippFixed_all (n d s rounds : ℕ) (hall : ∀ a, mrTrial n d s a = true) :
    ∀ l cnt, ippFixed n d s rounds l cnt = Sum.inl true ∨
      ∃ c, ippFixed n d s rounds l cnt = Sum.inr c := by
  intro l
  induction l with
  | nil =>
    intro cnt
    exact Or.inr ⟨cnt, rfl⟩
  | cons a rest ih =>
    intro cnt
    rw [ippFixed]
    simp only [hall a, Bool.true_eq_false, if_false]
    split_ifs with hr
    · exact Or.inl rfl
    · exact ih (cnt + 1)

theorem ippRandom_all (g : ℕ → ℕ) (n d s : ℕ) (hall : ∀ a, mrTrial n d s a = true) :
    ∀ fuel seed, ippRandom g n d s seed fuel = true := by
  intro fuel
  induction fuel with
  | zero =>
    intro seed
    rfl
  | succ k ih =>
    intro seed
    rw [ippRandom]
    simp only [hall]
    simpa using ih (g seed)

/-- Shared helper: primes always pass `isPrime64`. -/
theorem isPrime64_of_prime (n : ℕ) (hn : n.Prime) : isPrime64 n = true := by
  unfold isPrime64
  split_ifs with h2
  · exact absurd hn.two_le (by omega)
  · cases hfind : List.find? (fun p => n % p == 0) [2, 3, 5, 7, 11, 13, 17, 19, 23, 29] with
    | some p =>
      have hmem := List.mem_of_find?_eq_some hfind
      have hdvd : p ∣ n := Nat.dvd_of_mod_eq_zero (by simpa using List.find?_some hfind)
      have hp2 : 2 ≤ p := by fin_cases hmem <;> norm_num
      rcases hn.eq_one_or_self_of_dvd p hdvd with h1 | hself
      · omega
      · simp [hself]
    | none =>
      rw [List.find?_eq_none] at hfind
      have h2n := hfind 2 (by simp)
      simp only [beq_iff_eq] at h2n
      have hn2 : 2 < n := by
        have := hn.two_le
        rcases Nat.lt_or_ge n 3 with h | h
        · interval_cases n
          · exact absurd rfl h2n
        · omega
      obtain ⟨hprod, -⟩ := splitTwos_spec (n - 1) 0 (by omega)
      simp only [Nat.sub_zero] at hprod
      have hds : n - 1 = (splitTwos (n - 1) 0).1 * 2 ^ (splitTwos (n - 1) 0).2 := hprod.symm
      rw [List.all_eq_true]
      intro a _
      exact mrTrial_of_prime n _ _ a hn hn2 hds

/-- Shared helper: primes always pass `isProbablePrime`, for every round
count and every seed-update function. -/
theorem isProbablePrime_of_prime (g : ℕ → ℕ) (n rounds : ℕ) (hn : n.Prime) :
    isProbablePrime g n rounds = true := by
  unfold isProbablePrime
  split_ifs with h2
  · exact absurd hn.two_le (by omega)
  · cases hfind : List.find? (fun p => n == p || n % p == 0)
        [2, 3, 5, 7, 11, 13, 17, 19, 23, 29, 31, 37] with
    | some p =>
      have hmem := List.mem_of_find?_eq_some hfind
      have hcond := List.find?_some hfind
      simp only [Bool.or_eq_true, beq_iff_eq] at hcond
      rcases hcond with heq | hmod
      · simp [heq]
      · have hdvd : p ∣ n := Nat.dvd_of_mod_eq_zero hmod
        have hp2 : 2 ≤ p := by fin_cases hmem <;> norm_num
        rcases hn.eq_one_or_self_of_dvd p hdvd with h1 | hself
        · omega
        · simp [hself]
    | none =>
      rw [List.find?_eq_none] at hfind
      have h2n := hfind 2 (by simp)
      simp only [Bool.or_eq_true, beq_iff_eq, not_or] at h2n
      have hn2 : 2 < n := by
        have := hn.two_le
        omega
      obtain ⟨hprod, -⟩ := splitTwos_spec (n - 1) 0 (by omega)
      simp only [Nat.sub_zero] at hprod
      have hds : n - 1 = (splitTwos (n - 1) 0).1 * 2 ^ (splitTwos (n - 1) 0).2 := hprod.symm
      have hall : ∀ a,
          mrTrial n (splitTwos (n - 1) 0).1 (splitTwos (n - 1) 0).2 a = true :=
        fun a => mrTrial_of_prime n _ _ a hn hn2 hds
      rcases ippFixed_all n _ _ rounds hall [2, 3, 5, 7, 11, 13, 17] 0 with htrue | ⟨c, hc⟩
      · rw [htrue]
      · rw [hc]
        exact ippRandom_all g n _ _ hall _ _

theorem sievePassLoop_of_prime (p : ℕ) (hp : p.Prime) :
    ∀ S : List ℕ, (∀ s ∈ S, s.Prime) → sievePassLoop (p : ℤ) S = true := by
  intro S
  induction S with
  | nil =>
    intro _
    rfl
  | cons s rest ih =>
    intro hS
    rw [sievePassLoop]
    split_ifs with h1 h2
    · rfl
    · exfalso
      have hsd : s ∣ p := Int.natCast_dvd_natCast.mp (Int.dvd_of_emod_eq_zero h2)
      have hsp : s.Prime := hS s (List.mem_cons_self s rest)
      rcases hp.eq_one_or_self_of_dvd s hsd with he | he
      · exact hsp.one_lt.ne' he
      · exact h1 (by rw [he])
    · exact ih fun t ht => hS t (List.mem_cons_of_mem s ht)

theorem goldbachLoop_of_primes (p q : ℕ) (hp : p.Prime) (hq : q.Prime) :
    ∀ S : List ℕ, (∀ s ∈ S, s.Prime) → goldbachLoop (p : ℤ) (q : ℤ) S = true := by
  intro S
  induction S with
  | nil =>
    intro _
    rfl
  | cons s rest ih =>
    intro hS
    rw [goldbachLoop]
    split_ifs with h1 h2
    · exact ih fun t ht => hS t (List.mem_cons_of_mem s ht)
    · exfalso
      have hsp : s.Prime := hS s (List.mem_cons_self s rest)
      rcases h2 with hd | hd
      · have hsd : s ∣ p := Int.natCast_dvd_natCast.mp (Int.dvd_of_emod_eq_zero hd)
        rcases hp.eq_one_or_self_of_dvd s hsd with he | he
        · exact hsp.one_lt.ne' he
        · exact h1 (Or.inl (by rw [he]))
      · have hsd : s ∣ q := Int.natCast_dvd_natCast.mp (Int.dvd_of_emod_eq_zero hd)
        rcases hq.eq_one_or_self_of_dvd s hsd with he | he
        · exact hsp.one_lt.ne' he
        · exact h1 (Or.inr (by rw [he]))
    · exact ih fun t ht => hS t (List.mem_cons_of_mem s ht)

/-- Shared helper: the single-candidate filter accepts every prime. -/
theorem admissibleSingle_of_prime (X u : ℤ) (S : List ℕ) (hS : ∀ s ∈ S, s.Prime)
    (p : ℕ) (hp : p.Prime) (hXu : X + u = (p : ℤ)) : admissibleSingle X u S = true := by
  unfold admissibleSingle
  rw [hXu]
  split_ifs with h1 h2
  · exfalso
    have : (2 : ℤ) ≤ (p : ℤ) := by exact_mod_cast hp.two_le
    omega
  · have hdvd : (2 : ℕ) ∣ p := by
      have : (2 : ℤ) ∣ (p : ℤ) := Int.dvd_of_emod_eq_zero h2
      exact_mod_cast this
    have hp2 : p = 2 :=
      ((hp.eq_one_or_self_of_dvd 2 hdvd).resolve_left (by norm_num)).symm
    simp [hp2]
  · exact sievePassLoop_of_prime p hp S hS

/-- Shared helper: the pair filter accepts every prime pair. -/
theorem admissibleGoldbach_of_primes (x t : ℤ) (S : List ℕ) (hS : ∀ s ∈ S, s.Prime)
    (p q : ℕ) (hp : p.Prime) (hq : q.Prime)
    (ha : x - t = (p : ℤ)) (hb : x + t = (q : ℤ)) : admissibleGoldbach x t S = true := by
  unfold admissibleGoldbach
  rw [ha, hb]
  have hp2 : (2 : ℤ) ≤ (p : ℤ) := by exact_mod_cast hp.two_le
  have hq2 : (2 : ℤ) ≤ (q : ℤ) := by exact_mod_cast hq.two_le
  split_ifs with h1 h2
  · omega
  · exfalso
    rcases h2 with ⟨he, hne⟩ | ⟨he, hne⟩
    · have hdvd : (2 : ℕ) ∣ p := by
        have : (2 : ℤ) ∣ (p : ℤ) := Int.dvd_of_emod_eq_zero he
        exact_mod_cast this
      have : p = 2 := ((hp.eq_one_or_self_of_dvd 2 hdvd).resolve_left (by norm_num)).symm
      exact hne (by exact_mod_cast this)
    · have hdvd : (2 : ℕ) ∣ q := by
        have : (2 : ℤ) ∣ (q : ℤ) := Int.dvd_of_emod_eq_zero he
        exact_mod_cast this
      have : q = 2 := ((hq.eq_one_or_self_of_dvd 2 hdvd).resolve_left (by norm_num)).symm
      exact hne (by exact_mod_cast this)
  · exact goldbachLoop_of_primes p q hp hq S hS

/-- With the abort flag clear, `admissibleAroundSqrt` is the pair filter. -/
theorem admissibleAroundSqrt_false (x t : ℤ) (S : List ℕ) :
    admissibleAroundSqrt false x t S = admissibleGoldbach x t S := rfl

theorem primeScan_tested_le (g : ℕ → ℕ) (X : ℤ) (S : List ℕ) (mr : ℕ) :
    ∀ offs tested, tested ≤ 2 → (primeScan g X S mr offs tested).testedCount ≤ 3 := by
  intro offs
  induction offs with
  | nil =>
    intro t ht
    simp only [primeScan, PrimeOutcome.testedCount]
    omega
  | cons u rest ih =>
    intro t ht
    rw [primeScan]
    split_ifs with hadm hprime hcap
    · simp only [PrimeOutcome.testedCount]
      omega
    · simp only [PrimeOutcome.testedCount]
      omega
    · exact ih (t + 1) (by omega)
    · exact ih t ht

theorem goldbachScan_tested_le (g : ℕ → ℕ) (x : ℤ) (S : List ℕ) (mr : ℕ) :
    ∀ offs tested, tested ≤ 2 → (goldbachScan g x S mr offs tested).testedCount ≤ 3 := by
  intro offs
  induction offs with
  | nil =>
    intro t ht
    simp only [goldbachScan, GoldbachOutcome.testedCount]
    omega
  | cons u rest ih =>
    intro t ht
    rw [goldbachScan]
    split_ifs with hadm hprime hcap
    · simp only [GoldbachOutcome.testedCount]
      omega
    · simp only [GoldbachOutcome.testedCount]
      omega
    · exact ih (t + 1) (by omega)
    · exact ih t ht

theorem ringOffsetsLoop_ring0_checked (N : ℤ) (S : List ℕ) (use : Bool) (X : ℤ) (Tn : ℕ) :
    froChecked (ringOffsetsLoop N S use X Tn 0 (symmetricOffsets (0 * Tn)) 0) ≤ 3 := by
  have h0 : symmetricOffsets (0 * Tn) = [0] := by
    simp [symmetricOffsets]
  rw [h0, ringOffsetsLoop]
  by_cases hpa : passesPrefilter use S (X + 0) = true <;>
    by_cases hda : N % (X + 0) = 0 <;>
      simp [hpa, hda, ringOffsetsLoop, froChecked] <;>
        split_ifs <;> simp

theorem fzRingLoop_ring0_checked (N : ℤ) (S : List ℕ) (pref : Bool) (x : ℤ) (Tn : ℕ) :
    fzChecked (fzRingLoop N S pref x Tn 0 (symmetricOffsets (0 * Tn)) 0) ≤ 3 := by
  have h0 : symmetricOffsets (0 * Tn) = [0] := by
    simp [symmetricOffsets]
  rw [h0, fzRingLoop]
  by_cases hpa : pref ∧ admissibleAroundSqrt false x 0 S = false <;>
    by_cases hda : N % (x + 0) = 0 <;>
      simp [hpa, hda, fzRingLoop, fzChecked] <;>
        split_ifs <;> simp

/-- Membership in the symmetric-offset enumeration is bounded magnitude. -/
theorem mem_symmetricOffsets (T : ℕ) (u : ℤ) :
    u ∈ symmetricOffsets T ↔ u.natAbs ≤ T := by
  simp only [symmetricOffsets, List.mem_cons, List.mem_flatMap, List.mem_range]
  constructor
  · rintro (rfl | ⟨d, hd, hu⟩)
    · simp
    · simp only [List.mem_cons, List.mem_singleton, List.not_mem_nil, or_false] at hu
      rcases hu with rfl | rfl <;> omega
  · intro h
    rcases Nat.eq_zero_or_pos u.natAbs with h0 | hpos
    · left
      omega
    · right
      refine ⟨u.natAbs - 1, by omega, ?_⟩
      simp only [List.mem_cons, List.mem_singleton, List.not_mem_nil, or_false]
      omega

/-- Uniqueness of the floor square root, for evaluating `isqrt` at squares. -/
theorem isqrt_eq_of_sq (n r : ℕ) (h1 : r * r ≤ n) (h2 : n < (r + 1) * (r + 1)) :
    isqrt n = r := by
  obtain ⟨ha, hb⟩ := isqrt_spec n
  by_contra hne
  rcases Nat.lt_or_ge (isqrt n) r with h | h
  · have : isqrt n + 1 ≤ r := by omega
    have := Nat.mul_le_mul this this
    omega
  · have hr : r + 1 ≤ isqrt n := by omega
    have := Nat.mul_le_mul hr hr
    omega

theorem takeWhile_all (p : Char → Bool) :
    ∀ l : List Char, (∀ c ∈ l, p c = true) →
      l.takeWhile p = l ∧ l.dropWhile p = [] := by
  intro l
  induction l with
  | nil =>
    intro _
    simp
  | cons a rest ih =>
    intro h
    have ha : p a = true := h a (List.mem_cons_self a rest)
    have hr := ih fun c hc => h c (List.mem_cons_of_mem a hc)
    simp [List.takeWhile_cons, List.dropWhile_cons, ha, hr.1, hr.2]

theorem takeWhile_append_stop (p : Char → Bool) (a : Char) (l2 : List Char)
    (ha : p a = false) :
    ∀ l1 : List Char, (∀ c ∈ l1, p c = true) →
      (l1 ++ a :: l2).takeWhile p = l1 ∧ (l1 ++ a :: l2).dropWhile p = a :: l2 := by
  intro l1
  induction l1 with
  | nil =>
    intro _
    simp [List.takeWhile_cons, List.dropWhile_cons, ha]
  | cons b rest ih =>
    intro h
    have hb : p b = true := h b (List.mem_cons_self b rest)
    have hr := ih fun c hc => h c (List.mem_cons_of_mem b hc)
    simp [List.takeWhile_cons, List.dropWhile_cons, hb, hr.1, hr.2]

theorem matchPowTail_isSome_iff (rest : List Char) :
    (matchPowTail rest).isSome = true ↔
      ((rest ≠ [] ∧ ∀ c ∈ rest, c.isDigit = true) ∨
        (∃ (ks : List Char) (sign : Char) (cs : List Char),
          ks ≠ [] ∧ (∀ c ∈ ks, c.isDigit = true) ∧ (sign = '+' ∨ sign = '-') ∧
            cs ≠ [] ∧ (∀ c ∈ cs, c.isDigit = true) ∧ rest = ks ++ sign :: cs)) := by
  unfold matchPowTail
  split_ifs with h0
  · simp only [Option.isSome_none, Bool.false_eq_true, false_iff]
    rintro (⟨hne, hdig⟩ | ⟨ks, sign, cs, hksne, hksdig, hsign, _, _, rfl⟩)
    · exact hne ((takeWhile_all Char.isDigit rest hdig).1 ▸ h0)
    · have hsd : Char.isDigit sign = false := by
        rcases hsign with rfl | rfl <;> decide
      exact hksne ((takeWhile_append_stop Char.isDigit sign cs hsd ks hksdig).1 ▸ h0)
  · cases hdrop : rest.dropWhile Char.isDigit with
    | nil =>
      simp only [Option.isSome_some, true_iff]
      left
      have hrest : rest.takeWhile Char.isDigit = rest := by
        have := List.takeWhile_append_dropWhile Char.isDigit rest
        rw [hdrop, List.append_nil] at this
        exact this
      refine ⟨fun hn => h0 (by simp [hn]), ?_⟩
      intro c hc
      exact List.mem_takeWhile_imp (hrest.symm ▸ hc)
    | cons c cs =>
      dsimp only
      split_ifs with hcond
      · simp only [Option.isSome_some, true_iff]
        right
        refine ⟨rest.takeWhile Char.isDigit, c, cs, h0, ?_, ?_, hcond.2.1, ?_, ?_⟩
        · intro d hd
          exact List.mem_takeWhile_imp hd
        · exact hcond.1
        · exact List.all_eq_true.mp hcond.2.2
        · rw [← hdrop, List.takeWhile_append_dropWhile]
      · simp only [Option.isSome_none, Bool.false_eq_true, false_iff]
        rintro (⟨hne, hdig⟩ | ⟨ks, sign, cs2, hksne, hksdig, hsign, hcsne, hcsdig, rfl⟩)
        · rw [(takeWhile_all Char.isDigit rest hdig).2] at hdrop
          cases hdrop
        · have hsd : Char.isDigit sign = false := by
            rcases hsign with rfl | rfl <;> decide
          obtain ⟨-, hd⟩ := takeWhile_append_stop Char.isDigit sign cs2 hsd ks hksdig
          rw [hd] at hdrop
          cases hdrop
          exact hcond ⟨hsign, hcsne, List.all_eq_true.mpr hcsdig⟩

theorem matchPow10_isSome_iff (s : List Char) :
    (matchPow10 s).isSome = true ↔
      ∃ ks : List Char, ks ≠ [] ∧ (∀ c ∈ ks, c.isDigit = true) ∧
        (s = '1' :: '0' :: '^' :: ks ∨
          ∃ (sign : Char) (cs : List Char), (sign = '+' ∨ sign = '-') ∧ cs ≠ [] ∧
            (∀ c ∈ cs, c.isDigit = true) ∧ s = '1' :: '0' :: '^' :: (ks ++ sign :: cs)) := by
  unfold matchPow10
  split
  · next rest =>
    rw [matchPowTail_isSome_iff]
    constructor
    · rintro (⟨hne, hdig⟩ | ⟨ks, sign, cs, hksne, hksdig, hsign, hcsne, hcsdig, rfl⟩)
      · exact ⟨rest, hne, hdig, Or.inl rfl⟩
      · exact ⟨ks, hksne, hksdig, Or.inr ⟨sign, cs, hsign, hcsne, hcsdig, rfl⟩⟩
    · rintro ⟨ks, hksne, hksdig, hshape | ⟨sign, cs, hsign, hcsne, hcsdig, hshape⟩⟩
      · obtain rfl : rest = ks := by
          injection hshape with h1 h
          injection h with h2 h
          injection h with h3 h
        exact Or.inl ⟨hksne, hksdig⟩
      · obtain rfl : rest = ks ++ sign :: cs := by
          injection hshape with h1 h
          injection h with h2 h
          injection h with h3 h
        exact Or.inr ⟨ks, sign, cs, hksne, hksdig, hsign, hcsne, hcsdig, rfl⟩
  · next hne =>
    simp only [Option.isSome_none, Bool.false_eq_true, false_iff]
    rintro ⟨ks, _, _, hshape | ⟨sign, cs, _, _, _, hshape⟩⟩
    · exact hne _ hshape
    · exact hne _ hshape

theorem parseStripped_ok_iff (s : List Char) :
    (parseStripped s).isOk = true ↔ SpecAccepts s := by
  unfold parseStripped SpecAccepts
  split_ifs with hnil hdig
  · subst hnil
    simp [ParseResult.isOk]
  · simp only [ParseResult.isOk, true_iff]
    exact Or.inl ⟨hnil, List.all_eq_true.mp hdig⟩
  · cases hm : matchPow10 s with
    | some kadj =>
      obtain ⟨k, adj⟩ := kadj
      have hshape := (matchPow10_isSome_iff s).mp (by rw [hm]; rfl)
      dsimp only
      constructor
      · intro _
        exact Or.inr hshape
      · intro _
        split_ifs
        · rfl
        · rcases adj with - | ⟨b, c⟩
          · rfl
          · cases b <;> rfl
    | none =>
      dsimp only
      simp only [ParseResult.isOk, Bool.false_eq_true, false_iff]
      rintro (⟨hne, hdigs⟩ | hshape)
      · exact hdig (List.all_eq_true.mpr hdigs)
      · have hsome : (matchPow10 s).isSome = true := (matchPow10_isSome_iff s).mpr hshape
        rw [hm] at hsome
        cases hsome

theorem parseStripped_errEmpty_iff (s : List Char) :
    parseStripped s = ParseResult.errEmpty ↔ s = [] := by
  unfold parseStripped
  split_ifs with hnil hdig
  · simp [hnil]
  · simp [hnil]
  · cases hm : matchPow10 s with
    | some kadj =>
      obtain ⟨k, adj⟩ := kadj
      dsimp only
      split_ifs
      · simp [hnil]
      · rcases adj with - | ⟨b, c⟩
        · simp [hnil]
        · cases b <;> simp [hnil]
    | none =>
      simp [hnil]

/-! ### Claim theorems -/

/-- C1: for every integer `N ≥ 1` on which `factorizeBigInt(N)` terminates
(i.e. every terminating run of `factor`, captured by `FactorRel`), the
product of the returned list equals `N` exactly and every entry passes
`isPrime64`. -/
theorem claim_C1 : ∀ (n : ℕ) (l : List ℕ), FactorRel n l →
    l.prod = n ∧ ∀ x ∈ l, isPrime64 x = true := by
  intro n l h
  induction h with
  | one => simp
  | prime m hp => simp [hp]
  | split m d l1 l2 hnp hdvd hd1 hdn h1 h2 ih1 ih2 =>
    refine ⟨?_, ?_⟩
    · rw [List.prod_append, ih1.1, ih2.1, Nat.mul_div_cancel' hdvd]
    · intro x hx
      rcases List.mem_append.mp hx with hx | hx
      · exact ih1.2 x hx
      · exact ih2.2 x hx

/-- C1 witness: the run `factor(6) = [2, 3]`. -/
theorem claim_C1_witness :
    ([2, 3] : List ℕ).prod = 6 ∧ ∀ x ∈ ([2, 3] : List ℕ), isPrime64 x = true := by
  have h2 : FactorRel 2 [2] := FactorRel.prime 2 (by decide)
  have h3 : FactorRel 3 [3] := FactorRel.prime 3 (by decide)
  have h6 : FactorRel 6 ([2] ++ [3]) :=
    FactorRel.split 6 2 [2] [3] (by decide) ⟨3, rfl⟩ (by norm_num) (by norm_num) h2 h3
  exact claim_C1 6 [2, 3] h6

/-- C2: the Miller-Rabin testers never call a prime composite — for every
prime `n`, every round count and every seed-update function,
`isProbablePrime` returns `true`, and so does `isPrime64`; consequently a
`false` verdict only ever occurs on genuinely non-prime inputs. -/
theorem claim_C2 :
    (∀ (g : ℕ → ℕ) (n rounds : ℕ), n.Prime → isProbablePrime g n rounds = true) ∧
    (∀ n : ℕ, n.Prime → isPrime64 n = true) ∧
    (∀ (g : ℕ → ℕ) (n rounds : ℕ), isProbablePrime g n rounds = false → ¬ n.Prime) ∧
    (∀ n : ℕ, isPrime64 n = false → ¬ n.Prime) := by
  refine ⟨isProbablePrime_of_prime, isPrime64_of_prime, ?_, ?_⟩
  · intro g n rounds hf hn
    rw [isProbablePrime_of_prime g n rounds hn] at hf
    cases hf
  · intro n hf hn
    rw [isPrime64_of_prime n hn] at hf
    cases hf

/-- C2 witness at the prime 101, with the idealised source seed update. -/
theorem claim_C2_witness :
    Nat.Prime 101 ∧
      isProbablePrime (fun s => (1103515245 * s + 12345) % 2 ^ 31) 101 20 = true ∧
      isPrime64 101 = true :=
  ⟨by norm_num, claim_C2.1 _ 101 20 (by norm_num), claim_C2.2.1 101 (by norm_num)⟩

/-- C3: none of the three admissibility prefilters ever rejects an offset
whose produced candidate is prime (single filter) or whose two symmetric
candidates are both prime (pair filters), for any center and any set of
prime sieve moduli. -/
theorem claim_C3 :
    (∀ (X u : ℤ) (S : List ℕ), (∀ s ∈ S, s.Prime) →
      ∀ p : ℕ, p.Prime → X + u = (p : ℤ) → admissibleSingle X u S = true) ∧
    (∀ (x t : ℤ) (S : List ℕ), (∀ s ∈ S, s.Prime) →
      ∀ p q : ℕ, p.Prime → q.Prime → x - t = (p : ℤ) → x + t = (q : ℤ) →
        admissibleGoldbach x t S = true) ∧
    (∀ (x t : ℤ) (S : List ℕ), (∀ s ∈ S, s.Prime) →
      ∀ p q : ℕ, p.Prime → q.Prime → x - t = (p : ℤ) → x + t = (q : ℤ) →
        admissibleAroundSqrt false x t S = true) := by
  refine ⟨?_, ?_, ?_⟩
  · intro X u S hS p hp hXu
    exact admissibleSingle_of_prime X u S hS p hp hXu
  · intro x t S hS p q hp hq ha hb
    exact admissibleGoldbach_of_primes x t S hS p q hp hq ha hb
  · intro x t S hS p q hp hq ha hb
    rw [admissibleAroundSqrt_false]
    exact admissibleGoldbach_of_primes x t S hS p q hp hq ha hb

/-- C3 witness: prime 13 near 10, and the prime pair (5, 7) around 6,
against the sieve primes [2, 3, 5]. -/
theorem claim_C3_witness :
    admissibleSingle 10 3 [2, 3, 5] = true ∧
      admissibleGoldbach 6 1 [2, 3, 5] = true ∧
      admissibleAroundSqrt false 6 1 [2, 3, 5] = true := by
  have hS : ∀ s ∈ ([2, 3, 5] : List ℕ), s.Prime := by
    intro s hs
    fin_cases hs <;> norm_num
  exact ⟨claim_C3.1 10 3 _ hS 13 (by norm_num) (by norm_num),
    claim_C3.2.1 6 1 _ hS 5 7 (by norm_num) (by norm_num) (by norm_num) (by norm_num),
    claim_C3.2.2 6 1 _ hS 5 7 (by norm_num) (by norm_num) (by norm_num) (by norm_num)⟩

/-- C4: both `isqrt` variants return the floor square root:
`r·r ≤ n < (r+1)·(r+1)` for every `n ≥ 0`. -/
theorem claim_C4 : ∀ n : ℕ,
    (isqrt n * isqrt n ≤ n ∧ n < (isqrt n + 1) * (isqrt n + 1)) ∧
    (isqrtNewton n * isqrtNewton n ≤ n ∧ n < (isqrtNewton n + 1) * (isqrtNewton n + 1)) :=
  fun n => ⟨isqrt_spec n, isqrtNewton_spec n⟩

/-- C7 (amended): `modPow` lands in `[0, modulus)` for non-negative base,
non-negative exponent and modulus ≥ 2. -/
theorem claim_C7 : ∀ base exp m : ℤ, 0 ≤ base → 0 ≤ exp → 2 ≤ m →
    0 ≤ modPow base exp m ∧ modPow base exp m < m :=
  fun base exp m hb _ hm => modPow_range base exp m hb hm

/-- C7 witness: `modPow 2 10 1000` lies in `[0, 1000)`. -/
theorem claim_C7_witness : 0 ≤ modPow 2 10 1000 ∧ modPow 2 10 1000 < 1000 :=
  claim_C7 2 10 1000 (by norm_num) (by norm_num) (by norm_num)

/-- C7 counterexample to the claim as stated: with modulus 1 and exponent 0
the result is 1, outside `[0, 1)`, and with a negative base the truncated
remainder makes the result negative. -/
theorem claim_C7_counterexample :
    (modPow 0 0 1 = 1 ∧ ¬ modPow 0 0 1 < 1) ∧
      (modPow (-1) 1 3 = -1 ∧ ¬ 0 ≤ modPow (-1) 1 3) := by
  have h1 : modPow 0 0 1 = 1 := by
    rw [modPow, modPowLoopInt]
    norm_num
  have h2 : modPow (-1) 1 3 = -1 := by
    rw [modPow, modPowLoopInt, modPowLoopInt]
    norm_num
    decide
  exact ⟨⟨h1, by omega⟩, ⟨h2, by omega⟩⟩

/-- C5: in every windowed search — prime-near-center, Goldbach pair, and
ring 0 of both sqrt-window factor searches — at most 3 admissible
candidates are ever subjected to the confirmation test at that stage; a
fourth admissible is never tested. -/
theorem claim_C5 :
    (∀ (g : ℕ → ℕ) (X : ℕ) (S : List ℕ) (Tauto Tover mr : ℕ),
      (runPrimeNearX g X S Tauto Tover mr).testedCount ≤ 3) ∧
    (∀ (g : ℕ → ℕ) (E : ℕ) (S : List ℕ) (Tauto Tover mr : ℕ),
      (runGoldbach g E S Tauto Tover mr).testedCount ≤ 3) ∧
    (∀ (N : ℤ) (S : List ℕ) (use : Bool) (X : ℤ) (Tn : ℕ),
      froChecked (ringOffsetsLoop N S use X Tn 0 (symmetricOffsets (0 * Tn)) 0) ≤ 3) ∧
    (∀ (N : ℤ) (S : List ℕ) (pref : Bool) (x : ℤ) (Tn : ℕ),
      fzChecked (fzRingLoop N S pref x Tn 0 (symmetricOffsets (0 * Tn)) 0) ≤ 3) := by
  refine ⟨?_, ?_, ringOffsetsLoop_ring0_checked, fzRingLoop_ring0_checked⟩
  · intro g X S Tauto Tover mr
    unfold runPrimeNearX
    split_ifs with h h2
    · simp [PrimeOutcome.testedCount]
    · exact primeScan_tested_le g X S mr _ 0 (by omega)
    · exact primeScan_tested_le g X S mr _ 0 (by omega)
  · intro g E S Tauto Tover mr
    unfold runGoldbach
    split_ifs with h1 h2 h3
    · simp [GoldbachOutcome.testedCount]
    · simp [GoldbachOutcome.testedCount]
    · exact goldbachScan_tested_le g _ S mr _ 0 (by omega)
    · exact goldbachScan_tested_le g _ S mr _ 0 (by omega)

/-- C6 (amended): the `T > 100000` safety guard exists only in the
prime-near-center and Goldbach modes — there, with no override and an
auto-derived radius above the ceiling, the engine returns the preview and
tests no candidate.  The factorization mode has no such guard (see the
counterexample). -/
theorem claim_C6 :
    (∀ (g : ℕ → ℕ) (X : ℕ) (S : List ℕ) (Tauto mr : ℕ), 100000 < Tauto →
      runPrimeNearX g X S Tauto 0 mr = PrimeOutcome.safetyPreview ∧
        (runPrimeNearX g X S Tauto 0 mr).testedCount = 0) ∧
    (∀ (g : ℕ → ℕ) (E : ℕ) (S : List ℕ) (Tauto mr : ℕ), E % 2 = 0 → 100000 < Tauto →
      runGoldbach g E S Tauto 0 mr = GoldbachOutcome.safetyPreview ∧
        (runGoldbach g E S Tauto 0 mr).testedCount = 0) := by
  constructor
  · intro g X S Tauto mr hT
    have h : runPrimeNearX g X S Tauto 0 mr = PrimeOutcome.safetyPreview := by
      unfold runPrimeNearX
      rw [if_pos ⟨rfl, hT⟩]
    exact ⟨h, by rw [h]; rfl⟩
  · intro g E S Tauto mr hE hT
    have h : runGoldbach g E S Tauto 0 mr = GoldbachOutcome.safetyPreview := by
      unfold runGoldbach
      rw [if_neg (by omega), if_pos ⟨rfl, hT⟩]
    exact ⟨h, by rw [h]; rfl⟩

/-- C6 witness: both guarded modes preview at `Tauto = 100001`. -/
theorem claim_C6_witness :
    runPrimeNearX id 5184286 [] 100001 0 12 = PrimeOutcome.safetyPreview ∧
      runGoldbach id 12228 [] 100001 0 12 = GoldbachOutcome.safetyPreview :=
  ⟨(claim_C6.1 id 5184286 [] 100001 12 (by norm_num)).1,
    (claim_C6.2 id 12228 [] 100001 12 (by norm_num) (by norm_num)).1⟩

/-- C6 counterexample: the factorization mode has no safety guard — with
the auto-derived radius `T = 106037 > 100000` for `N = 10^100` (and no
override parameter even existing), the engine scans anyway and subjects a
candidate to the divisibility test (finding the factor `10^50` at ring 0,
`checked = 1`), instead of returning a preview-only report. -/
theorem claim_C6_counterexample :
    100000 < 106037 ∧
      runFactorization (10 ^ 100) [] 106037 0 false =
        FactorOutcome.found 0 ((10 : ℤ) ^ 50) ((10 : ℤ) ^ 50) 1 0 := by
  refine ⟨by norm_num, ?_⟩
  have hiq : isqrt (10 ^ 100) = 10 ^ 50 :=
    isqrt_eq_of_sq _ _ (by norm_num) (by norm_num)
  have hmod : ((10 : ℤ) ^ 100) % ((10 : ℤ) ^ 50 + 0) = 0 := by
    rw [add_zero, show (10 : ℤ) ^ 100 = 10 ^ 50 * 10 ^ 50 from by ring]
    exact Int.mul_emod_right _ _
  have hdiv : ((10 : ℤ) ^ 100) / ((10 : ℤ) ^ 50 + 0) = (10 : ℤ) ^ 50 := by
    rw [add_zero, show (10 : ℤ) ^ 100 = 10 ^ 50 * 10 ^ 50 from by ring]
    exact Int.mul_ediv_cancel_left _ (by positivity)
  have hscan : ringOffsetsLoop ((10 ^ 100 : ℕ) : ℤ) [] false ((10 ^ 50 : ℕ) : ℤ) 106037 0
      (symmetricOffsets (0 * 106037)) 0 =
      Sum.inl (FactorOutcome.found 0 ((10 : ℤ) ^ 50) ((10 : ℤ) ^ 50) 1 0) := by
    have h0 : symmetricOffsets (0 * 106037) = [0] := by simp [symmetricOffsets]
    rw [h0, ringOffsetsLoop]
    push_cast
    simp [passesPrefilter, hmod, hdiv]
  unfold runFactorization
  rw [if_neg (by norm_num), hiq, ringsLoop, hscan]

/-- C8 (amended): for `k ≥ 1`, ring `k` subjects to testing exactly the
offsets with magnitude in the closed interval `[(k-1)·T, k·T]` — the lower
boundary `(k-1)·T` is included, so those offsets are re-tested in ring `k`
after already being covered by ring `k-1`. -/
theorem claim_C8 : ∀ (Tn k : ℕ) (u : ℤ), 1 ≤ k →
    (u ∈ ringOffsets Tn k ↔ (k - 1) * Tn ≤ u.natAbs ∧ u.natAbs ≤ k * Tn) := by
  intro Tn k u hk
  unfold ringOffsets
  rw [List.mem_filter, mem_symmetricOffsets]
  have h0 : 0 < k := hk
  have hb : (!(decide (0 < k) && decide (u.natAbs < (k - 1) * Tn))) = true ↔
      ¬ u.natAbs < (k - 1) * Tn := by
    simp [h0]
  rw [hb]
  constructor
  · rintro ⟨h1, h2⟩
    exact ⟨Nat.le_of_not_lt h2, h1⟩
  · rintro ⟨h1, h2⟩
    exact ⟨h2, Nat.not_lt.mpr h1⟩

/-- C8 witness: with `T = 2`, ring 1 tests the boundary offset `2`. -/
theorem claim_C8_witness : (2 : ℤ) ∈ ringOffsets 2 1 :=
  (claim_C8 2 1 2 (by norm_num)).mpr (by constructor <;> decide)

/-- C8 counterexample to the claim as stated: the offset `0` is tested in
ring 1 (with `T = 2`) although its magnitude is not in the half-open
interval `((1-1)·2, 1·2]` — it was already tested in ring 0. -/
theorem claim_C8_counterexample :
    (0 : ℤ) ∈ ringOffsets 2 1 ∧ ¬ ((1 - 1) * 2 < (0 : ℤ).natAbs) := by
  constructor
  · decide
  · decide

/-- C9 (amended): the parser first deletes every whitespace character
(trim plus global `\s+` replacement); it then succeeds exactly on strings
whose whitespace-free form is a nonempty digit sequence or the
`10^k[±c]` pattern, fails with the empty-input error exactly when the
whitespace-free form is empty, and fails with the format error otherwise. -/
theorem claim_C9 : ∀ raw : List Char,
    ((parseBigIntExpr raw).isOk = true ↔
      SpecAccepts (raw.filter fun c => !jsWhitespace c)) ∧
    (parseBigIntExpr raw = ParseResult.errEmpty ↔
      (raw.filter fun c => !jsWhitespace c) = []) :=
  fun raw => ⟨parseStripped_ok_iff (raw.filter fun c => !jsWhitespace c),
    parseStripped_errEmpty_iff (raw.filter fun c => !jsWhitespace c)⟩

/-- C9 counterexample to the claim as stated: the trimmed string `"1 0"`
(an interior space) is neither a digit sequence nor a `10^k` pattern, yet
the parser succeeds on it, because interior whitespace is deleted before
matching. -/
theorem claim_C9_counterexample :
    (parseBigIntExpr ['1', ' ', '0']).isOk = true ∧ ¬ SpecAccepts ['1', ' ', '0'] := by
  constructor
  · decide
  · rintro (⟨-, hdig⟩ | ⟨ks, hksne, hksdig, hshape | ⟨sign, cs, hsign, hcsne, hcsdig, hshape⟩⟩)
    · exact absurd (hdig ' ' (by simp)) (by decide)
    · injection hshape with h1 h
      injection h with h2 h
      exact absurd h2 (by decide)
    · injection hshape with h1 h
      injection h with h2 h
      exact absurd h2 (by decide)

/-- C10: for every even `N` the FactoriX `factorize` returns immediately
from the even phase with `p = 2` and `q = N/2`, with no check that the
cofactor exceeds 1. -/
theorem claim_C10 : ∀ (N B : ℕ) (smalls S : List ℕ) (Tn K : ℕ) (pref : Bool),
    N % 2 = 0 →
      factorize N B smalls S Tn K pref = FzOutcome.evenPhase 2 ((N : ℤ) / 2) := by
  intro N B smalls S Tn K pref h
  unfold factorize
  rw [if_pos h]

/-- C10 witness: `N = 2` (with the UI default parameters) is reported as
the successful factorization `(2, 1)`. -/
theorem claim_C10_witness :
    factorize 2 200000 [] [] 20000 40 true = FzOutcome.evenPhase 2 1 := by
  have h := claim_C10 2 200000 [] [] 20000 40 true (by norm_num)
  norm_num at h
  exact h
